import Mathlib

/-!
Verification development for the e-commerce analytics dashboard (`src/app.py`).

The program is a pandas/streamlit dashboard.  We shallowly embed the parts of it
that carry logic: the loader (`load_and_clean_data`), the country filter
(`filtered_data`), the product aggregation and top-n ranking
(`product_performance` / `top_products`), and the RFM segmentation pipeline
(reference date, per-customer metrics, `pd.qcut` quantile scoring with the
retry loops, and the composite segment / score fields).

Modelling conventions:
* a dataframe is a `List` of records, one record per row;
* timestamps are rationals counting days, so `+ pd.Timedelta(days=1)` is `+ 1`
  and `Timedelta.days` is the floor (the deltas that occur are nonnegative,
  where floor and python truncation agree);
* numeric columns are `Rat` / `Int`; missing `CustomerID` is `Option Nat`;
* `pd.qcut(x, k, labels)` is embedded with the numpy linear-interpolation
  quantile, the duplicate-edge check, the label-count check and the
  searchsorted bin assignment with `include_lowest`; it returns
  `Except String` mirroring the `ValueError`s pandas raises;
* `groupby` sorts its keys ascending (pandas `sort=True` default); string keys
  are compared by code point, as python does, via `strLe` below;
* `sort_values(ascending=False)` computes the ascending order and reverses it,
  which is what pandas `nargsort` does (for the small frames evaluated here the
  underlying numpy sort is insertion sort, hence stable).
-/

attribute [local semireducible] Rat.add Rat.mul Rat.sub Rat.inv

instance exceptDecEq {ε α : Type} [DecidableEq ε] [DecidableEq α] :
    DecidableEq (Except ε α)
  | .error e, .error f =>
    match decEq e f with
    | isTrue h => isTrue (h ▸ rfl)
    | isFalse h => isFalse fun hh => h (Except.error.inj hh)
  | .error _, .ok _ => isFalse fun hh => Except.noConfusion hh
  | .ok _, .error _ => isFalse fun hh => Except.noConfusion hh
  | .ok x, .ok y =>
    match decEq x y with
    | isTrue h => isTrue (h ▸ rfl)
    | isFalse h => isFalse fun hh => h (Except.ok.inj hh)

/-- Lexicographic comparison of strings as lists of code points (python string
order), kernel-computable. -/
def lexLe : List Char → List Char → Bool
  | [], _ => true
  | _ :: _, [] => false
  | a :: as, b :: bs =>
    if a.toNat < b.toNat then true
    else if b.toNat < a.toNat then false
    else lexLe as bs

/-- Python string `<=` on code points. -/
def strLe (a b : String) : Bool := lexLe a.data b.data

/-- One raw CSV row, after date parsing (`pd.to_datetime`) but before the
derived column and the quantity filter. -/
structure RawRow where
  invoiceNo : String
  customerID : Option Nat
  country : String
  stockCode : String
  descr : String
  quantity : Int
  unitPrice : Rat
  invoiceDate : Rat
deriving DecidableEq, Repr

/-- One row of the cleaned working table, with the derived `TotalSales`. -/
structure Row where
  invoiceNo : String
  customerID : Option Nat
  country : String
  stockCode : String
  descr : String
  quantity : Int
  unitPrice : Rat
  invoiceDate : Rat
  totalSales : Rat
deriving DecidableEq, Repr

/-- `load_and_clean_data` (app.py lines 9-13): add
`TotalSales = Quantity * UnitPrice`, keep rows with `Quantity > 0`. -/
def load_and_clean_data (raw : List RawRow) : List Row :=
  (raw.map fun r =>
    ({ invoiceNo := r.invoiceNo, customerID := r.customerID, country := r.country,
       stockCode := r.stockCode, descr := r.descr, quantity := r.quantity,
       unitPrice := r.unitPrice, invoiceDate := r.invoiceDate,
       totalSales := (r.quantity : Rat) * r.unitPrice } : Row)).filter
    fun r => decide (0 < r.quantity)

/-- `filtered_data` (app.py line 22): the whole table for "All", otherwise the
rows whose `Country` equals the selection. -/
def filtered_data (data : List Row) (selectedCountry : String) : List Row :=
  if selectedCountry = "All" then data
  else data.filter fun r => r.country == selectedCountry

/-- Maximum of a pandas numeric/date series (`Series.max`).  The empty-series
value is never consumed: on an empty cohort `pd.qcut` raises first. -/
def seriesMax : List Rat → Rat
  | [] => 0
  | [x] => x
  | x :: y :: xs => max x (seriesMax (y :: xs))

/-- The `InvoiceDate` column of a table. -/
def invoiceDates (t : List Row) : List Rat := t.map (·.invoiceDate)

/-- `reference_date` (app.py line 116): one day after the last transaction of
the filtered table. -/
def reference_date (t : List Row) : Rat := seriesMax (invoiceDates t) + 1

/-- Ascending sort of customer ids (`groupby` sorts its keys). -/
def natSort (l : List Nat) : List Nat := l.insertionSort (· ≤ ·)

/-- The distinct customer ids of the filtered table, ascending; rows with a
missing `CustomerID` are dropped by `groupby`. -/
def customersOf (t : List Row) : List Nat :=
  natSort (t.filterMap (·.customerID)).dedup

/-- The rows of one customer. -/
def custRows (t : List Row) (c : Nat) : List Row :=
  t.filter fun r => r.customerID == some c

/-- `Recency` (app.py line 120): `(reference_date - x.max()).days`. -/
def recencyOf (t : List Row) (c : Nat) : Int :=
  Int.floor (reference_date t - seriesMax (invoiceDates (custRows t c)))

/-- `Frequency` (app.py line 121): `InvoiceNo` nunique. -/
def frequencyOf (t : List Row) (c : Nat) : Nat :=
  ((custRows t c).map (·.invoiceNo)).dedup.length

/-- `Monetary` (app.py line 122): sum of `TotalSales`. -/
def monetaryOf (t : List Row) (c : Nat) : Rat :=
  ((custRows t c).map (·.totalSales)).sum

/-- One row of the `rfm` frame after the groupby/agg (app.py lines 119-124). -/
structure RFMRow where
  customerID : Nat
  recency : Int
  frequency : Nat
  monetary : Rat
deriving DecidableEq, Repr

/-- The `rfm` frame of per-customer metrics, one row per distinct customer. -/
def rfmBase (t : List Row) : List RFMRow :=
  (customersOf t).map fun c =>
    { customerID := c, recency := recencyOf t c, frequency := frequencyOf t c,
      monetary := monetaryOf t c }

/-- Ascending sort of a rational series (numpy sorts the data before taking
quantiles). -/
def ratSort (l : List Rat) : List Rat := l.insertionSort (· ≤ ·)

/-- Numpy linear-interpolation quantile of an ascending-sorted list at
probability `p`: index `h = p * (n - 1)`, interpolate between the neighbouring
order statistics. -/
def quantileAt (sorted : List Rat) (p : Rat) : Rat :=
  let h : Rat := p * ((sorted.length : Rat) - 1)
  let i : Nat := (Int.floor h).toNat
  let base := sorted.getD i 0
  let next := sorted.getD (i + 1) base
  base + Int.fract h * (next - base)

/-- The `k+1` quantile bin edges `pd.qcut` computes, at probabilities `j/k`. -/
def quantileEdges (values : List Rat) (k : Nat) : List Rat :=
  (List.range (k + 1)).map fun j : Nat => quantileAt (ratSort values) ((j : Rat) / (k : Rat))

/-- Zero-based bin of `v`: `searchsorted(edges, v, side=left)` adjusted by the
`include_lowest` correction for `v` equal to the first edge, minus one. -/
def binIndex (edges : List Rat) (v : Rat) : Nat :=
  (if v = edges.getD 0 0 then (edges.countP fun e => decide (e < v)) + 1
   else edges.countP fun e => decide (e < v)) - 1

/-- The label a value receives: `labels[binIndex]`. -/
def scoreWith (edges : List Rat) (labels : List Nat) (v : Rat) : Nat :=
  labels.getD (binIndex edges v) 0

/-- `pd.qcut(values, k, labels, duplicates)` restricted to what app.py uses.
Duplicate edges raise `ValueError` unless `duplicates="drop"`; with `drop`, a
reduced edge list no longer matches the label count, which also raises.  An
empty input yields collapsing (all-equal) edges, hence also an error, exactly
as the all-NaN edges of pandas do. -/
def qcut (values : List Rat) (k : Nat) (labels : List Nat) (dropDup : Bool) :
    Except String (List Nat) :=
  let edges := quantileEdges values k
  let uniq := edges.dedup
  if uniq.length < edges.length ∧ edges.length ≠ 2 then
    if dropDup then
      if labels.length = uniq.length - 1 then
        .ok (values.map (scoreWith uniq labels))
      else .error "Bin labels must be one fewer than the number of bin edges"
    else .error "Bin edges must be unique"
  else
    if labels.length = edges.length - 1 then
      .ok (values.map (scoreWith edges labels))
    else .error "Bin labels must be one fewer than the number of bin edges"

/-- `labels=range(1, bins + 1)` of the frequency/monetary loops. -/
def fLabels (k : Nat) : List Nat := List.range' 1 k

/-- The dynamic-score loop of app.py lines 130-135 and 138-143: try
`pd.qcut(values, bins, labels=range(1, bins+1), duplicates="drop")` for
`bins = 5, 4, 3, 2`, keeping the first success; `none` when every attempt
raises, leaving the score column unassigned. -/
def tryBins (values : List Rat) : Option (List Nat) :=
  [5, 4, 3, 2].findSome? fun k => (qcut values k (fLabels k) true).toOption

/-- `labels=[5, 4, 3, 2, 1]` of the `R_Score` call (app.py line 127). -/
def rLabels : List Nat := [5, 4, 3, 2, 1]

/-- The `Recency` column of the `rfm` frame, as fed to `pd.qcut`. -/
def recencyValues (t : List Row) : List Rat := (rfmBase t).map fun r => (r.recency : Rat)

/-- The `Frequency` column of the `rfm` frame, as fed to `pd.qcut`. -/
def frequencyValues (t : List Row) : List Rat := (rfmBase t).map fun r => (r.frequency : Rat)

/-- The `Monetary` column of the `rfm` frame, as fed to `pd.qcut`. -/
def monetaryValues (t : List Row) : List Rat := (rfmBase t).map fun r => r.monetary

/-- One fully scored RFM record (app.py lines 127-147). -/
structure ScoredRow where
  customerID : Nat
  recency : Int
  frequency : Nat
  monetary : Rat
  rScore : Nat
  fScore : Nat
  mScore : Nat
  rfmSegment : String
  rfmScore : Nat
deriving DecidableEq, Repr

/-- Attach the three scores and the composite fields of app.py lines 146-147:
`RFM_Segment` is the digit-string concatenation in R, F, M order and
`RFM_Score` the sum. -/
def mkScored (r : RFMRow) (a b c : Nat) : ScoredRow :=
  { customerID := r.customerID, recency := r.recency, frequency := r.frequency,
    monetary := r.monetary, rScore := a, fScore := b, mScore := c,
    rfmSegment := toString a ++ toString b ++ toString c, rfmScore := a + b + c }

/-- The RFM engine (app.py lines 116-147).  `R_Score` is one `pd.qcut` call
with no retry and no `duplicates="drop"`; its `ValueError` propagates.  The
frequency and monetary loops swallow every failure, so when one of them never
succeeds the corresponding column does not exist and line 146 raises a
`KeyError` for it. -/
def rfmPipeline (t : List Row) : Except String (List ScoredRow) :=
  match qcut (recencyValues t) 5 rLabels false with
  | .error e => .error e
  | .ok rS =>
    match tryBins (frequencyValues t) with
    | none => .error "KeyError: F_Score"
    | some fS =>
      match tryBins (monetaryValues t) with
      | none => .error "KeyError: M_Score"
      | some mS =>
        .ok (((((rfmBase t).zip rS).zip fS).zip mS).map
          fun x => mkScored x.1.1.1 x.1.1.2 x.1.2 x.2)

/-- One row of the `product_performance` frame (app.py lines 69-72): group by
`Description`, sum `TotalSales` and `Quantity`. -/
structure ProductAgg where
  descr : String
  totalSales : Rat
  quantity : Int
deriving DecidableEq, Repr

/-- Ascending sort of the groupby keys. -/
def keySort (l : List String) : List String :=
  l.insertionSort fun a b => strLe a b = true

/-- `product_performance` (app.py lines 69-72): one aggregated row per distinct
`Description`, keys ascending. -/
def product_performance (t : List Row) : List ProductAgg :=
  (keySort (t.map (·.descr)).dedup).map fun d =>
    { descr := d,
      totalSales := ((t.filter fun r => r.descr == d).map (·.totalSales)).sum,
      quantity := ((t.filter fun r => r.descr == d).map (·.quantity)).sum }

/-- Comparison used by `sort_values(by="TotalSales")`. -/
def salesLe (a b : ProductAgg) : Prop := a.totalSales ≤ b.totalSales

instance : DecidableRel salesLe := fun a b => inferInstanceAs (Decidable (a.totalSales ≤ b.totalSales))

/-- `sort_values(by="TotalSales", ascending=False)`: pandas computes the
ascending permutation and reverses it. -/
def sort_values_desc (l : List ProductAgg) : List ProductAgg :=
  (l.insertionSort salesLe).reverse

/-- `top_products` (app.py line 77): descending sort then `head(n)`. -/
def top_products (t : List Row) (n : Nat) : List ProductAgg :=
  (sort_values_desc (product_performance t)).take n

/-- Modelled from the spec: the degradation policy of §4.3 Step 3 applied to
the recency metric — bin into `k` quantile bins with the inverted labels
`k..1`, retrying with `k-1` from `k = 5` down to `k = 2` when duplicate edges
make the attempt fail.  The source has no such loop for `R_Score`; this
definition exists to compare the claimed policy against the code. -/
def specRecencyRetry (values : List Rat) : Option (List Nat) :=
  [5, 4, 3, 2].findSome? fun k =>
    (qcut values k (List.range' 1 k).reverse true).toOption

/-- Row builder for the concrete tables below. -/
def mkRaw (inv : String) (cust : Option Nat) (ctry d : String) (qty : Int)
    (price date : Rat) : RawRow :=
  { invoiceNo := inv, customerID := cust, country := ctry, stockCode := "S",
    descr := d, quantity := qty, unitPrice := price, invoiceDate := date }

/-- Six customers whose recencies are `[1, 1, 1, 2, 2, 2]`: too many ties for
five recency bins, while two bins would work. -/
def c1table : List Row := load_and_clean_data
  [mkRaw "i1" (some 1) "UK" "P" 1 1 10,
   mkRaw "i2" (some 2) "UK" "P" 1 2 10,
   mkRaw "i3" (some 3) "UK" "P" 1 3 10,
   mkRaw "i4" (some 4) "UK" "P" 1 4 9,
   mkRaw "i5" (some 5) "UK" "P" 1 5 9,
   mkRaw "i6" (some 6) "UK" "P" 1 6 9]

/-- Five customers with distinct recencies and monetaries but every frequency
equal to 1, so the frequency loop fails at every bin count. -/
def c2table : List Row := load_and_clean_data
  [mkRaw "i1" (some 1) "UK" "P" 1 10 10,
   mkRaw "i2" (some 2) "UK" "P" 1 20 9,
   mkRaw "i3" (some 3) "UK" "P" 1 30 8,
   mkRaw "i4" (some 4) "UK" "P" 1 40 7,
   mkRaw "i5" (some 5) "UK" "P" 1 50 6]

/-- A one-row table whose only country is France. -/
def c3data : List Row := load_and_clean_data
  [mkRaw "i1" (some 1) "France" "P" 1 10 5]

/-- Five customers with pairwise distinct recency, frequency and monetary, on
which the whole pipeline succeeds. -/
def okTable : List Row := load_and_clean_data
  [mkRaw "a1" (some 1) "UK" "P" 1 100 10,
   mkRaw "b1" (some 2) "UK" "P" 1 100 9,
   mkRaw "b2" (some 2) "UK" "P" 1 100 9,
   mkRaw "c1" (some 3) "UK" "P" 1 100 8,
   mkRaw "c2" (some 3) "UK" "P" 1 100 8,
   mkRaw "c3" (some 3) "UK" "P" 1 100 8,
   mkRaw "d1" (some 4) "UK" "P" 1 100 7,
   mkRaw "d2" (some 4) "UK" "P" 1 100 7,
   mkRaw "d3" (some 4) "UK" "P" 1 100 7,
   mkRaw "d4" (some 4) "UK" "P" 1 100 7,
   mkRaw "e1" (some 5) "UK" "P" 1 100 6,
   mkRaw "e2" (some 5) "UK" "P" 1 100 6,
   mkRaw "e3" (some 5) "UK" "P" 1 100 6,
   mkRaw "e4" (some 5) "UK" "P" 1 100 6,
   mkRaw "e5" (some 5) "UK" "P" 1 100 6]

/-- The scored records the pipeline produces on `okTable`. -/
def okRecs : List ScoredRow :=
  [⟨1, 1, 1, 100, 5, 1, 1, "511", 7⟩,
   ⟨2, 2, 2, 200, 4, 2, 2, "422", 8⟩,
   ⟨3, 3, 3, 300, 3, 3, 3, "333", 9⟩,
   ⟨4, 4, 4, 400, 2, 4, 4, "244", 10⟩,
   ⟨5, 5, 5, 500, 1, 5, 5, "155", 11⟩]

/-- The first two scored records of `okTable`. -/
def okRec1 : ScoredRow := ⟨1, 1, 1, 100, 5, 1, 1, "511", 7⟩

/-- The second scored record of `okTable`. -/
def okRec2 : ScoredRow := ⟨2, 2, 2, 200, 4, 2, 2, "422", 8⟩

/-- Two products "A" and "B" with equal total sales. -/
def c9table : List Row := load_and_clean_data
  [mkRaw "i1" (some 1) "UK" "A" 1 10 5,
   mkRaw "i2" (some 2) "UK" "B" 2 5 5]

/-- A raw input with one returned (negative-quantity) row. -/
def c7raw : List RawRow :=
  [mkRaw "i1" (some 1) "UK" "P" 2 3 1,
   mkRaw "i2" none "UK" "P" (-1) 4 2]

/-! ### Helper lemmas -/

theorem le_seriesMax : ∀ {l : List Rat}, ∀ a ∈ l, a ≤ seriesMax l := by
  intro l
  induction l with
  | nil => intro a ha; cases ha
  | cons x xs ih =>
    cases xs with
    | nil => intro a ha; rcases List.mem_singleton.mp ha with rfl; exact le_of_eq rfl
    | cons y ys =>
      intro a ha
      rcases List.mem_cons.mp ha with rfl | hmem
      · exact le_max_left _ _
      · exact le_trans (ih a hmem) (le_max_right _ _)

theorem seriesMax_mem : ∀ {l : List Rat}, l ≠ [] → seriesMax l ∈ l := by
  intro l
  induction l with
  | nil => intro h; exact absurd rfl h
  | cons x xs ih =>
    cases xs with
    | nil => intro _; exact List.mem_singleton.mpr rfl
    | cons y ys =>
      intro _
      rcases max_choice x (seriesMax (y :: ys)) with hc | hc
      · rw [seriesMax, hc]; exact List.mem_cons_self _ _
      · rw [seriesMax, hc]; exact List.mem_cons_of_mem _ (ih (by simp))

theorem sorted_getD_le {s : List Rat} (hs : s.Sorted (· ≤ ·)) {i j : Nat}
    (hij : i ≤ j) (hj : j < s.length) : s.getD i 0 ≤ s.getD j 0 := by
  have hi : i < s.length := lt_of_le_of_lt hij hj
  rw [List.getD_eq_getElem s 0 hi, List.getD_eq_getElem s 0 hj]
  exact List.Sorted.rel_get_of_le hs hij

theorem getD_zero_le_of_mem {s : List Rat} (hs : s.Sorted (· ≤ ·)) {v : Rat}
    (hv : v ∈ s) : s.getD 0 0 ≤ v := by
  obtain ⟨⟨i, hi⟩, rfl⟩ := List.mem_iff_get.mp hv
  have h0 := sorted_getD_le hs (Nat.zero_le i) hi
  rwa [List.getD_eq_getElem s 0 hi] at h0

theorem le_getD_last_of_mem {s : List Rat} (hs : s.Sorted (· ≤ ·)) {v : Rat}
    (hv : v ∈ s) : v ≤ s.getD (s.length - 1) 0 := by
  obtain ⟨⟨i, hi⟩, rfl⟩ := List.mem_iff_get.mp hv
  have hlast : s.length - 1 < s.length := by omega
  have h0 := sorted_getD_le hs (by omega : i ≤ s.length - 1) hlast
  rwa [List.getD_eq_getElem s 0 hi] at h0

theorem ratSort_sorted (l : List Rat) : (ratSort l).Sorted (· ≤ ·) :=
  List.sorted_insertionSort _ l

theorem ratSort_perm (l : List Rat) : (ratSort l).Perm l := List.perm_insertionSort _ l

theorem quantileAt_zero (s : List Rat) : quantileAt s 0 = s.getD 0 0 := by
  unfold quantileAt
  simp

theorem quantileAt_one (s : List Rat) : quantileAt s 1 = s.getD (s.length - 1) 0 := by
  unfold quantileAt
  rcases eq_or_ne s [] with rfl | hne
  · norm_num [Int.fract]
  · obtain ⟨m, hm⟩ : ∃ m, s.length = m + 1 :=
      ⟨s.length - 1, (Nat.succ_pred_eq_of_pos (List.length_pos.mpr hne)).symm⟩
    rw [hm]
    have h1 : (1 : Rat) * (((m + 1 : Nat) : Rat) - 1) = ((m : Nat) : Rat) := by push_cast; ring
    rw [h1]
    simp [Int.fract_natCast, Int.floor_natCast]

theorem getD_zero_le_quantileAt {s : List Rat} (hs : s.Sorted (· ≤ ·)) {p : Rat}
    (hp0 : 0 ≤ p) (hp1 : p ≤ 1) : s.getD 0 0 ≤ quantileAt s p := by
  unfold quantileAt
  rcases eq_or_ne s [] with rfl | hne
  · simp
  · have hlen : 0 < s.length := List.length_pos.mpr hne
    have hnn : (0 : Rat) ≤ (s.length : Rat) - 1 := by
      have : (1 : Rat) ≤ (s.length : Rat) := by exact_mod_cast hlen
      linarith
    have hh0 : 0 ≤ p * ((s.length : Rat) - 1) := mul_nonneg hp0 hnn
    have hh1 : p * ((s.length : Rat) - 1) ≤ (s.length : Rat) - 1 :=
      mul_le_of_le_one_left hnn hp1
    have hfle : ⌊p * ((s.length : Rat) - 1)⌋ ≤ (s.length : Int) - 1 := by
      have h2 : ((s.length : Int) : Rat) - 1 = (s.length : Rat) - 1 := by push_cast; ring
      have h3 := Int.floor_le_floor hh1
      have h4 : ⌊(s.length : Rat) - 1⌋ = (s.length : Int) - 1 := by
        rw [← h2, ← Int.cast_one, ← Int.cast_sub, Int.floor_intCast]
      omega
    have hi : (⌊p * ((s.length : Rat) - 1)⌋).toNat < s.length := by
      rw [← Nat.cast_lt (α := Int), Int.toNat_of_nonneg (Int.floor_nonneg.mpr hh0)]
      omega
    have hbase : s.getD 0 0 ≤ s.getD (⌊p * ((s.length : Rat) - 1)⌋).toNat 0 :=
      sorted_getD_le hs (Nat.zero_le _) hi
    have hnext : s.getD (⌊p * ((s.length : Rat) - 1)⌋).toNat 0 ≤
        s.getD ((⌊p * ((s.length : Rat) - 1)⌋).toNat + 1)
          (s.getD (⌊p * ((s.length : Rat) - 1)⌋).toNat 0) := by
      rcases Nat.lt_or_ge ((⌊p * ((s.length : Rat) - 1)⌋).toNat + 1) s.length with hlt | hge
      · rw [List.getD_eq_getElem s _ hlt, List.getD_eq_getElem s 0 hi]
        exact List.Sorted.rel_get_of_le hs (by exact Nat.le_succ _)
      · rw [List.getD_eq_default _ _ hge]
    have hfr : 0 ≤ Int.fract (p * ((s.length : Rat) - 1)) := Int.fract_nonneg _
    have hprod : 0 ≤ Int.fract (p * ((s.length : Rat) - 1)) *
        (s.getD ((⌊p * ((s.length : Rat) - 1)⌋).toNat + 1)
          (s.getD (⌊p * ((s.length : Rat) - 1)⌋).toNat 0) -
         s.getD (⌊p * ((s.length : Rat) - 1)⌋).toNat 0) :=
      mul_nonneg hfr (by linarith)
    dsimp only
    linarith

theorem countP_lt_of_mem_false {l : List Rat} {p : Rat → Bool} {x : Rat}
    (hx : x ∈ l) (hpx : p x = false) : l.countP p < l.length := by
  rcases eq_or_lt_of_le (List.countP_le_length p : l.countP p ≤ l.length) with heq | hlt
  · exact absurd (List.countP_eq_length.mp heq x hx) (by simp [hpx])
  · exact hlt

theorem mem_quantileEdges {values : List Rat} {k : Nat} {e : Rat} :
    e ∈ quantileEdges values k ↔
      ∃ j, j < k + 1 ∧ quantileAt (ratSort values) ((j : Rat) / (k : Rat)) = e := by
  unfold quantileEdges
  rw [List.mem_map]
  constructor
  · rintro ⟨j, hj, rfl⟩
    exact ⟨j, List.mem_range.mp hj, rfl⟩
  · rintro ⟨j, hj, hje⟩
    exact ⟨j, List.mem_range.mpr hj, hje⟩

theorem edges_getD_zero (values : List Rat) (k : Nat) :
    (quantileEdges values k).getD 0 0 = (ratSort values).getD 0 0 := by
  unfold quantileEdges
  rw [List.range_succ_eq_map]
  simp [quantileAt_zero]

theorem edges_lower {values : List Rat} {k : Nat} {e : Rat}
    (he : e ∈ quantileEdges values k) : (quantileEdges values k).getD 0 0 ≤ e := by
  rw [edges_getD_zero]
  obtain ⟨j, hj, rfl⟩ := mem_quantileEdges.mp he
  apply getD_zero_le_quantileAt (ratSort_sorted values)
  · positivity
  · rcases Nat.eq_zero_or_pos k with rfl | hk
    · norm_num
    · rw [div_le_one (by exact_mod_cast hk)]
      exact_mod_cast Nat.lt_succ_iff.mp hj

theorem getD_zero_le_of_mem_values {values : List Rat} {k : Nat} {v : Rat}
    (hv : v ∈ values) : (quantileEdges values k).getD 0 0 ≤ v := by
  rw [edges_getD_zero]
  exact getD_zero_le_of_mem (ratSort_sorted values) ((ratSort_perm values).mem_iff.mpr hv)

theorem le_last_edge {values : List Rat} {v : Rat} (hv : v ∈ values) :
    v ≤ quantileAt (ratSort values) 1 := by
  rw [quantileAt_one]
  exact le_getD_last_of_mem (ratSort_sorted values) ((ratSort_perm values).mem_iff.mpr hv)

theorem mem_edges_last {values : List Rat} {k : Nat} (hk : k ≠ 0) :
    quantileAt (ratSort values) 1 ∈ quantileEdges values k := by
  refine mem_quantileEdges.mpr ⟨k, Nat.lt_succ_self k, ?_⟩
  rw [div_self (Nat.cast_ne_zero.mpr hk)]

theorem binIndex_mono {values : List Rat} {k : Nat} {a b : Rat}
    (ha : a ∈ values) (_hb : b ∈ values) (hab : a < b) :
    binIndex (quantileEdges values k) a ≤ binIndex (quantileEdges values k) b := by
  unfold binIndex
  have he0a : (quantileEdges values k).getD 0 0 ≤ a := getD_zero_le_of_mem_values ha
  have hcount : ((quantileEdges values k).countP fun e => decide (e < a)) ≤
      (quantileEdges values k).countP fun e => decide (e < b) := by
    refine List.countP_mono_left fun e _ hea => ?_
    simp only [decide_eq_true_eq] at hea ⊢
    exact lt_trans hea hab
  by_cases hb0 : b = (quantileEdges values k).getD 0 0
  · exact absurd (lt_of_lt_of_le hab (hb0 ▸ he0a)) (lt_irrefl a)
  · by_cases ha0 : a = (quantileEdges values k).getD 0 0
    · rw [if_pos ha0, if_neg hb0]
      have hz : ((quantileEdges values k).countP fun e => decide (e < a)) = 0 := by
        rw [List.countP_eq_zero]
        intro e he
        simp only [decide_eq_true_eq, not_lt]
        exact ha0 ▸ edges_lower he
      rw [hz]
      omega
    · rw [if_neg ha0, if_neg hb0]
      omega

theorem binIndex_le {values : List Rat} {k : Nat} (hk : k ≠ 0) {b : Rat}
    (hb : b ∈ values) : binIndex (quantileEdges values k) b ≤ k - 1 := by
  unfold binIndex
  have hlen : (quantileEdges values k).length = k + 1 := by
    rw [quantileEdges, List.length_map, List.length_range]
  have hcount : ((quantileEdges values k).countP fun e => decide (e < b)) ≤ k := by
    have hlt : ((quantileEdges values k).countP fun e => decide (e < b)) <
        (quantileEdges values k).length :=
      countP_lt_of_mem_false (mem_edges_last hk)
        (by simp only [decide_eq_false_iff_not, not_lt]; exact le_last_edge hb)
    omega
  by_cases hb0 : b = (quantileEdges values k).getD 0 0
  · rw [if_pos hb0]
    have hz : ((quantileEdges values k).countP fun e => decide (e < b)) = 0 := by
      rw [List.countP_eq_zero]
      intro e he
      simp only [decide_eq_true_eq, not_lt]
      exact hb0 ▸ edges_lower he
    rw [hz]
    omega
  · rw [if_neg hb0]
    omega

theorem rLabels_getD_anti {i j : Nat} (hij : i ≤ j) (hj : j ≤ 4) :
    rLabels.getD j 0 ≤ rLabels.getD i 0 := by
  have hi : i ≤ 4 := le_trans hij hj
  interval_cases j <;> interval_cases i <;> simp [rLabels]

theorem scoreWith_rLabels_anti {values : List Rat} {a b : Rat} (ha : a ∈ values)
    (hb : b ∈ values) (hab : a < b) :
    scoreWith (quantileEdges values 5) rLabels b ≤
      scoreWith (quantileEdges values 5) rLabels a := by
  unfold scoreWith
  exact rLabels_getD_anti (binIndex_mono ha hb hab)
    (binIndex_le (by norm_num) hb)

theorem qcut_ok_map_raise {values : List Rat} {k : Nat} {labels out : List Nat}
    (h : qcut values k labels false = .ok out) :
    out = values.map (scoreWith (quantileEdges values k) labels) := by
  simp only [qcut, Bool.false_eq_true, if_false] at h
  split at h
  · exact absurd h fun hh => Except.noConfusion hh
  · split at h
    · exact (Except.ok.inj h).symm
    · exact absurd h fun hh => Except.noConfusion hh

theorem qcut_ok_shape {values : List Rat} {k : Nat} {labels out : List Nat} {dd : Bool}
    (h : qcut values k labels dd = .ok out) :
    ∃ edges, out = values.map (scoreWith edges labels) := by
  simp only [qcut] at h
  split at h
  · split at h
    · split at h
      · exact ⟨_, (Except.ok.inj h).symm⟩
      · exact absurd h fun hh => Except.noConfusion hh
    · exact absurd h fun hh => Except.noConfusion hh
  · split at h
    · exact ⟨_, (Except.ok.inj h).symm⟩
    · exact absurd h fun hh => Except.noConfusion hh

theorem findSome_qcut {values : List Rat} {out : List Nat} :
    ∀ ks : List Nat,
      (ks.findSome? fun k => (qcut values k (fLabels k) true).toOption) = some out →
      ∃ k ∈ ks, qcut values k (fLabels k) true = .ok out := by
  intro ks
  induction ks with
  | nil => intro h; simp [List.findSome?] at h
  | cons a l ih =>
    intro h
    rw [List.findSome?_cons] at h
    cases hq : qcut values a (fLabels a) true with
    | ok o =>
      rw [hq] at h
      simp only [Except.toOption] at h
      have ho : o = out := by
        cases h
        rfl
      exact ⟨a, List.mem_cons_self a l, by rw [← ho]; exact hq⟩
    | error e =>
      rw [hq] at h
      simp only [Except.toOption] at h
      obtain ⟨k, hk, hkq⟩ := ih h
      exact ⟨k, List.mem_cons_of_mem a hk, hkq⟩

theorem tryBins_some_exists {values : List Rat} {out : List Nat}
    (h : tryBins values = some out) :
    ∃ k ∈ [5, 4, 3, 2], qcut values k (fLabels k) true = .ok out := by
  rw [tryBins] at h
  exact findSome_qcut [5, 4, 3, 2] h

theorem zip3_map_mkScored {g1 g2 g3 : RFMRow → Nat} :
    ∀ l : List RFMRow,
      ((((l.zip (l.map g1)).zip (l.map g2)).zip (l.map g3)).map
        fun x => mkScored x.1.1.1 x.1.1.2 x.1.2 x.2) =
      l.map fun x => mkScored x (g1 x) (g2 x) (g3 x) := by
  intro l
  induction l with
  | nil => rfl
  | cons x xs ih =>
    simp only [List.map_cons, List.zip_cons_cons]
    rw [ih]

theorem rfmPipeline_ok_cases {t : List Row} {recs : List ScoredRow}
    (h : rfmPipeline t = .ok recs) :
    ∃ rS fS mS, qcut (recencyValues t) 5 rLabels false = .ok rS ∧
      tryBins (frequencyValues t) = some fS ∧ tryBins (monetaryValues t) = some mS ∧
      recs = ((((rfmBase t).zip rS).zip fS).zip mS).map
        fun x => mkScored x.1.1.1 x.1.1.2 x.1.2 x.2 := by
  unfold rfmPipeline at h
  cases hR : qcut (recencyValues t) 5 rLabels false with
  | error e => rw [hR] at h; exact absurd h fun hh => Except.noConfusion hh
  | ok rS =>
    rw [hR] at h
    cases hF : tryBins (frequencyValues t) with
    | none => rw [hF] at h; exact absurd h fun hh => Except.noConfusion hh
    | some fS =>
      rw [hF] at h
      cases hM : tryBins (monetaryValues t) with
      | none => rw [hM] at h; exact absurd h fun hh => Except.noConfusion hh
      | some mS =>
        rw [hM] at h
        exact ⟨rS, fS, mS, rfl, rfl, rfl, (Except.ok.inj h).symm⟩

theorem rfmPipeline_ok_shape {t : List Row} {recs : List ScoredRow}
    (h : rfmPipeline t = .ok recs) :
    ∃ f2 f3 : RFMRow → Nat, recs = (rfmBase t).map fun x =>
      mkScored x (scoreWith (quantileEdges (recencyValues t) 5) rLabels (x.recency : Rat))
        (f2 x) (f3 x) := by
  obtain ⟨rS, fS, mS, hR, hF, hM, hrecs⟩ := rfmPipeline_ok_cases h
  obtain ⟨k2, hk2, hq2⟩ := tryBins_some_exists hF
  obtain ⟨k3, hk3, hq3⟩ := tryBins_some_exists hM
  obtain ⟨e2, h2⟩ := qcut_ok_shape hq2
  obtain ⟨e3, h3⟩ := qcut_ok_shape hq3
  have h1 := qcut_ok_map_raise hR
  refine ⟨fun x => scoreWith e2 (fLabels k2) (x.frequency : Rat),
          fun x => scoreWith e3 (fLabels k3) x.monetary, ?_⟩
  rw [hrecs, h1, h2, h3]
  simp only [recencyValues, frequencyValues, monetaryValues, List.map_map]
  exact zip3_map_mkScored _

theorem custRows_ne_nil {t : List Row} {c : Nat} (hc : c ∈ customersOf t) :
    custRows t c ≠ [] := by
  unfold customersOf natSort at hc
  have hc2 : c ∈ (t.filterMap (·.customerID)).dedup :=
    (List.perm_insertionSort _ _).mem_iff.mp hc
  obtain ⟨r, hr, hrc⟩ := List.mem_filterMap.mp (List.mem_dedup.mp hc2)
  intro hnil
  have hmem : r ∈ custRows t c := by
    unfold custRows
    rw [List.mem_filter]
    exact ⟨hr, by simp [hrc]⟩
  rw [hnil] at hmem
  cases hmem

theorem filtered_data_sublist (data : List Row) (c : String) :
    (filtered_data data c).Sublist data := by
  unfold filtered_data
  split
  · exact List.Sublist.refl data
  · exact List.filter_sublist data

theorem loaded_row_inv {raw : List RawRow} {r : Row} (hr : r ∈ load_and_clean_data raw) :
    0 < r.quantity ∧ r.totalSales = (r.quantity : Rat) * r.unitPrice := by
  unfold load_and_clean_data at hr
  rw [List.mem_filter] at hr
  obtain ⟨hmem, hq⟩ := hr
  obtain ⟨s, hs, rfl⟩ := List.mem_map.mp hmem
  exact ⟨by simpa using hq, rfl⟩

/-! ### Claim theorems -/

/-- C7: every row the Loader produces, and hence every row of every filtered
table derived from it, has a strictly positive quantity and a `TotalSales`
equal to quantity times unit price. -/
theorem c7_loader_invariant (raw : List RawRow) (c : String) :
    (∀ r ∈ load_and_clean_data raw,
        0 < r.quantity ∧ r.totalSales = (r.quantity : Rat) * r.unitPrice) ∧
    ∀ r ∈ filtered_data (load_and_clean_data raw) c,
        0 < r.quantity ∧ r.totalSales = (r.quantity : Rat) * r.unitPrice := by
  refine ⟨fun r hr => loaded_row_inv hr, fun r hr => ?_⟩
  exact loaded_row_inv ((filtered_data_sublist (load_and_clean_data raw) c).subset hr)

/-- C7 witness: the invariant evaluated on a concrete raw input containing a
negative-quantity row. -/
theorem c7_witness :
    0 < (⟨"i1", some 1, "UK", "S", "P", 2, 3, 1, 6⟩ : Row).quantity ∧
    (⟨"i1", some 1, "UK", "S", "P", 2, 3, 1, 6⟩ : Row).totalSales =
      (((⟨"i1", some 1, "UK", "S", "P", 2, 3, 1, 6⟩ : Row).quantity : Rat)) *
        (⟨"i1", some 1, "UK", "S", "P", 2, 3, 1, 6⟩ : Row).unitPrice :=
  (c7_loader_invariant c7raw "All").1 _ (by decide)

/-- C8: the Filter Stage is a pure function of table and criteria: "All"
returns the table itself, any other selection returns exactly the rows whose
country equals the selection, and the result is always a sublist of the
(unchanged) input table. -/
theorem c8_filter_stage (data : List Row) (c : String) :
    (c = "All" → filtered_data data c = data) ∧
    (c ≠ "All" → filtered_data data c = data.filter fun r => decide (r.country = c)) ∧
    (filtered_data data c).Sublist data := by
  refine ⟨fun h => by simp [filtered_data, h], fun h => ?_, filtered_data_sublist data c⟩
  unfold filtered_data
  rw [if_neg h]
  refine List.filter_congr fun r _ => ?_
  by_cases hrc : r.country = c
  · simp [hrc]
  · simp [hrc]

/-- C8 witness: the filter stage evaluated on a concrete table for the "All"
selection, a matching country and a non-matching country. -/
theorem c8_witness :
    filtered_data c3data "All" = c3data ∧
    filtered_data c3data "France" =
      (c3data.filter fun r => decide (r.country = "France")) ∧
    (filtered_data c3data "Germany").Sublist c3data :=
  ⟨(c8_filter_stage c3data "All").1 rfl,
   (c8_filter_stage c3data "France").2.1 (by decide),
   (c8_filter_stage c3data "Germany").2.2⟩

/-- C4: on a non-empty filtered table the reference instant is exactly one day
after the table-wide maximum invoice date (`seriesMax` really is that maximum),
and each customer's recency is the floored day difference between the reference
instant and that customer's own most recent invoice date. -/
theorem c4_reference_and_recency (t : List Row) (ht : t ≠ []) :
    (seriesMax (invoiceDates t) ∈ invoiceDates t ∧
      ∀ d ∈ invoiceDates t, d ≤ seriesMax (invoiceDates t)) ∧
    reference_date t = seriesMax (invoiceDates t) + 1 ∧
    ∀ r ∈ rfmBase t,
      (seriesMax (invoiceDates (custRows t r.customerID)) ∈
          invoiceDates (custRows t r.customerID) ∧
        ∀ d ∈ invoiceDates (custRows t r.customerID),
          d ≤ seriesMax (invoiceDates (custRows t r.customerID))) ∧
      r.recency =
        ⌊reference_date t - seriesMax (invoiceDates (custRows t r.customerID))⌋ := by
  have hdne : invoiceDates t ≠ [] := by
    simp [invoiceDates, ht]
  refine ⟨⟨seriesMax_mem hdne, fun d hd => le_seriesMax d hd⟩, rfl, ?_⟩
  intro r hr
  rw [rfmBase] at hr
  obtain ⟨c, hc, rfl⟩ := List.mem_map.mp hr
  have hcne : custRows t c ≠ [] := custRows_ne_nil hc
  have hcdne : invoiceDates (custRows t c) ≠ [] := by simp [invoiceDates, hcne]
  exact ⟨⟨seriesMax_mem hcdne, fun d hd => le_seriesMax d hd⟩, rfl⟩

set_option maxRecDepth 8000 in
/-- C4 witness: the reference instant and one customer recency evaluated on
`okTable`. -/
theorem c4_witness :
    reference_date okTable = seriesMax (invoiceDates okTable) + 1 ∧
    (⟨1, 1, 1, 100⟩ : RFMRow).recency =
      ⌊reference_date okTable - seriesMax (invoiceDates (custRows okTable 1))⌋ :=
  ⟨(c4_reference_and_recency okTable (by decide)).2.1,
   ((c4_reference_and_recency okTable (by decide)).2.2 ⟨1, 1, 1, 100⟩ (by decide)).2⟩

/-- C10: on a non-empty filtered table every customer recency is at least one
day, because the reference instant exceeds every invoice date by at least one
day. -/
theorem c10_recency_positive (t : List Row) (_ht : t ≠ []) :
    ∀ r ∈ rfmBase t, 1 ≤ r.recency := by
  intro r hr
  rw [rfmBase] at hr
  obtain ⟨c, hc, rfl⟩ := List.mem_map.mp hr
  show 1 ≤ recencyOf t c
  unfold recencyOf reference_date
  rw [Int.le_floor]
  have hcne : custRows t c ≠ [] := custRows_ne_nil hc
  have hcdne : invoiceDates (custRows t c) ≠ [] := by simp [invoiceDates, hcne]
  have hmem : seriesMax (invoiceDates (custRows t c)) ∈ invoiceDates t := by
    have h1 : seriesMax (invoiceDates (custRows t c)) ∈ invoiceDates (custRows t c) :=
      seriesMax_mem hcdne
    have hsub : (custRows t c).Sublist t := List.filter_sublist t
    exact (hsub.map (·.invoiceDate)).subset h1
  have hle : seriesMax (invoiceDates (custRows t c)) ≤ seriesMax (invoiceDates t) :=
    le_seriesMax _ hmem
  push_cast
  linarith

set_option maxRecDepth 8000 in
/-- C10 witness: the strict positivity evaluated on `okTable`. -/
theorem c10_witness : 1 ≤ (⟨1, 1, 1, 100⟩ : RFMRow).recency :=
  c10_recency_positive okTable (by decide) ⟨1, 1, 1, 100⟩ (by decide)

/-- C5: when the pipeline succeeds, recency scoring is monotonically inverse:
a customer with strictly smaller recency gets a recency score at least as
large. -/
theorem c5_recency_score_antitone (t : List Row) (recs : List ScoredRow)
    (h : rfmPipeline t = .ok recs) (a b : ScoredRow) (ha : a ∈ recs) (hb : b ∈ recs)
    (hab : a.recency < b.recency) : b.rScore ≤ a.rScore := by
  obtain ⟨f2, f3, hrecs⟩ := rfmPipeline_ok_shape h
  subst hrecs
  obtain ⟨x, hx, rfl⟩ := List.mem_map.mp ha
  obtain ⟨y, hy, rfl⟩ := List.mem_map.mp hb
  simp only [mkScored] at hab ⊢
  have hxv : ((x.recency : Rat)) ∈ recencyValues t := by
    unfold recencyValues
    exact List.mem_map_of_mem _ hx
  have hyv : ((y.recency : Rat)) ∈ recencyValues t := by
    unfold recencyValues
    exact List.mem_map_of_mem _ hy
  exact scoreWith_rLabels_anti hxv hyv (by exact_mod_cast hab)

set_option maxRecDepth 8000 in
/-- C5 witness: two concrete customers of `okTable` with recencies 1 < 2 and
recency scores 5 ≥ 4. -/
theorem c5_witness :
    rfmPipeline okTable = .ok okRecs ∧ okRec2.rScore ≤ okRec1.rScore :=
  ⟨by decide, c5_recency_score_antitone okTable okRecs (by decide) okRec1 okRec2
    (by decide) (by decide) (by decide)⟩

/-- C6: when the pipeline succeeds, every record's composite fields satisfy
`RFM_Score = R + F + M` and `RFM_Segment` is the digit-string concatenation in
R, F, M order. -/
theorem c6_composite_fields (t : List Row) (recs : List ScoredRow)
    (h : rfmPipeline t = .ok recs) :
    ∀ r ∈ recs, r.rfmScore = r.rScore + r.fScore + r.mScore ∧
      r.rfmSegment = toString r.rScore ++ toString r.fScore ++ toString r.mScore := by
  obtain ⟨f2, f3, hrecs⟩ := rfmPipeline_ok_shape h
  subst hrecs
  intro r hr
  obtain ⟨x, hx, rfl⟩ := List.mem_map.mp hr
  exact ⟨rfl, rfl⟩

set_option maxRecDepth 8000 in
/-- C6 witness: the composite fields of one concrete record of `okTable`. -/
theorem c6_witness :
    okRec1.rfmScore = okRec1.rScore + okRec1.fScore + okRec1.mScore ∧
    okRec1.rfmSegment =
      toString okRec1.rScore ++ toString okRec1.fScore ++ toString okRec1.mScore :=
  c6_composite_fields okTable okRecs (by decide) okRec1 (by decide)

/-- C1 counterexample: on a cohort with recencies `[1, 1, 1, 2, 2, 2]` the
claimed degradation policy succeeds (at `k = 2`), but the pipeline raises the
duplicate-bin-edges error of the single `R_Score` qcut call at `k = 5` instead
of retrying. -/
theorem c1_counterexample :
    rfmPipeline c1table = .error "Bin edges must be unique" ∧
    specRecencyRetry (recencyValues c1table) = some [2, 2, 2, 1, 1, 1] :=
  ⟨by decide, by decide⟩

/-- C1 amended: the degradation policy (retry with `k-1` bins from `k = 5`
down to `k = 2`) applies to the frequency and monetary metrics only — each
loop keeps the result of the first bin count, scanning downward, whose qcut
succeeds — while recency is binned exactly once at `k = 5` with no retry, so a
binning error there propagates out of the pipeline unchanged. -/
theorem c1_degradation_policy :
    (∀ (t : List Row) (e : String),
        qcut (recencyValues t) 5 rLabels false = .error e →
        rfmPipeline t = .error e) ∧
    ∀ (values : List Rat) (k : Nat), k ∈ [5, 4, 3, 2] →
      (∀ j ∈ [5, 4, 3, 2], k < j →
        (qcut values j (fLabels j) true).toOption = none) →
      ∀ out, qcut values k (fLabels k) true = .ok out →
        tryBins values = some out := by
  constructor
  · intro t e hR
    unfold rfmPipeline
    rw [hR]
  · intro values k hk hprev out hout
    unfold tryBins
    simp only [List.mem_cons, List.not_mem_nil, or_false] at hk
    rcases hk with rfl | rfl | rfl | rfl
    · simp only [List.findSome?_cons]
      rw [hout]
      rfl
    · have h5 := hprev 5 (by norm_num) (by norm_num)
      simp only [List.findSome?_cons]
      rw [h5, hout]
      rfl
    · have h5 := hprev 5 (by norm_num) (by norm_num)
      have h4 := hprev 4 (by norm_num) (by norm_num)
      simp only [List.findSome?_cons]
      rw [h5, h4, hout]
      rfl
    · have h5 := hprev 5 (by norm_num) (by norm_num)
      have h4 := hprev 4 (by norm_num) (by norm_num)
      have h3 := hprev 3 (by norm_num) (by norm_num)
      simp only [List.findSome?_cons]
      rw [h5, h4, h3, hout]
      rfl

set_option maxRecDepth 8000 in
/-- C1 witness: a recency binning error propagating unchanged on `c1table`,
and the frequency loop of `okTable` keeping its first (here `k = 5`)
success. -/
theorem c1_witness :
    rfmPipeline c1table = .error "Bin edges must be unique" ∧
    tryBins (frequencyValues okTable) = some [1, 2, 3, 4, 5] :=
  ⟨c1_degradation_policy.1 c1table _ (by decide),
   c1_degradation_policy.2 (frequencyValues okTable) 5 (by decide) (by decide) _
     (by decide)⟩

/-- C2 counterexample: on `c2table` every customer has frequency 1, the
frequency loop fails at every bin count, and the pipeline raises a `KeyError`
instead of reporting the frequency score as unavailable and keeping the other
metrics. -/
theorem c2_counterexample :
    tryBins (frequencyValues c2table) = none ∧
    rfmPipeline c2table = .error "KeyError: F_Score" :=
  ⟨by decide, by decide⟩

/-- C2 amended: when the frequency or monetary loop fails at every bin count
from 5 down to 2 the score column is never assigned, and the composite-field
line then raises a `KeyError` for the missing column; the pipeline propagates
that error and produces no records at all. -/
theorem c2_unscored_metric_raises (t : List Row) (rS : List Nat)
    (hR : qcut (recencyValues t) 5 rLabels false = .ok rS)
    (hFM : tryBins (frequencyValues t) = none ∨ tryBins (monetaryValues t) = none) :
    rfmPipeline t = .error "KeyError: F_Score" ∨
      rfmPipeline t = .error "KeyError: M_Score" := by
  unfold rfmPipeline
  rw [hR]
  rcases hFM with h | h
  · left
    rw [h]
  · cases hF : tryBins (frequencyValues t) with
    | none => left; rfl
    | some fS => right; rw [h]

/-- C2 witness: the amended failure semantics evaluated on `c2table`. -/
theorem c2_witness :
    rfmPipeline c2table = .error "KeyError: F_Score" ∨
      rfmPipeline c2table = .error "KeyError: M_Score" :=
  c2_unscored_metric_raises c2table [5, 4, 3, 2, 1] (by decide) (Or.inl (by decide))

/-- C3 counterexample: filtering to a country absent from the table yields an
empty table, on which the engine raises the duplicate-bin-edges error instead
of returning an empty RFM record set. -/
theorem c3_counterexample :
    filtered_data c3data "Germany" = [] ∧
    rfmPipeline (filtered_data c3data "Germany") = .error "Bin edges must be unique" :=
  ⟨by decide, by decide⟩

/-- C3 amended: for every filter criteria whose result table is empty, the RFM
engine raises the duplicate-bin-edges ValueError of the `R_Score` qcut call on
the empty cohort (its edges all collapse); it does not return an empty
result. -/
theorem c3_empty_cohort_raises (data : List Row) (c : String)
    (h : filtered_data data c = []) :
    rfmPipeline (filtered_data data c) = .error "Bin edges must be unique" := by
  rw [h]
  decide

/-- C3 witness: the empty-cohort error evaluated on a concrete table and
country. -/
theorem c3_witness :
    rfmPipeline (filtered_data c3data "Germany") = .error "Bin edges must be unique" :=
  c3_empty_cohort_raises c3data "Germany" (by decide)

instance : IsTotal ProductAgg salesLe :=
  ⟨fun a b => le_total a.totalSales b.totalSales⟩

instance : IsTrans ProductAgg salesLe :=
  ⟨fun _ _ _ hab hbc => le_trans hab hbc⟩

theorem filter_orderedInsert_pos {x : ProductAgg} {p : ProductAgg → Bool}
    (hx : p x = true) (hcl : ∀ y : ProductAgg, ¬ salesLe x y → p y = false) :
    ∀ l : List ProductAgg, (l.orderedInsert salesLe x).filter p = x :: l.filter p := by
  intro l
  induction l with
  | nil => simp [List.orderedInsert, hx]
  | cons b l ih =>
    rw [List.orderedInsert]
    by_cases hxb : salesLe x b
    · rw [if_pos hxb]
      simp [List.filter_cons, hx]
    · rw [if_neg hxb]
      simp [List.filter_cons, hcl b hxb, ih]

theorem filter_orderedInsert_neg {x : ProductAgg} {p : ProductAgg → Bool}
    (hx : p x = false) :
    ∀ l : List ProductAgg, (l.orderedInsert salesLe x).filter p = l.filter p := by
  intro l
  induction l with
  | nil => simp [List.orderedInsert, hx]
  | cons b l ih =>
    rw [List.orderedInsert]
    by_cases hxb : salesLe x b
    · rw [if_pos hxb]
      simp [List.filter_cons, hx]
    · rw [if_neg hxb]
      simp [List.filter_cons, ih]

theorem filter_insertionSort_eq (p : ProductAgg → Bool)
    (hp : ∀ x y : ProductAgg, p x = true → ¬ salesLe x y → p y = false) :
    ∀ l : List ProductAgg, (l.insertionSort salesLe).filter p = l.filter p := by
  intro l
  induction l with
  | nil => rfl
  | cons x l ih =>
    rw [List.insertionSort]
    cases hx : p x with
    | true =>
      rw [filter_orderedInsert_pos hx (fun y hy => hp x y hx hy), ih]
      simp [List.filter_cons, hx]
    | false =>
      rw [filter_orderedInsert_neg hx, ih]
      simp [List.filter_cons, hx]

theorem salesEq_class (v : Rat) :
    ∀ x y : ProductAgg, decide (x.totalSales = v) = true → ¬ salesLe x y →
      decide (y.totalSales = v) = false := by
  intro x y hx hxy
  simp only [decide_eq_true_eq] at hx
  simp only [decide_eq_false_iff_not]
  intro hy
  exact hxy (le_of_eq (by rw [hx, hy]))

theorem sort_values_desc_pairwise (l : List ProductAgg) :
    List.Pairwise (fun a b : ProductAgg => b.totalSales ≤ a.totalSales)
      (sort_values_desc l) := by
  unfold sort_values_desc
  rw [List.pairwise_reverse]
  exact List.sorted_insertionSort salesLe l

/-- C9 counterexample: two products "A" and "B" with equal total sales appear
in the order A, B in the aggregated input but B, A in the top-n output — ties
are reversed, not kept in input order. -/
theorem c9_counterexample :
    (product_performance c9table).map (fun a => a.descr) = ["A", "B"] ∧
    (product_performance c9table).map (fun a => a.totalSales) = [10, 10] ∧
    (top_products c9table 2).map (fun a => a.descr) = ["B", "A"] :=
  ⟨by decide, by decide, by decide⟩

/-- C9 amended: `top_products` returns the first `n` entries of the
descending-by-`TotalSales` reordering of `product_performance`: the output is
sorted descending, every kept entry has total sales at least those of every
dropped entry, and within each group of equal total sales the entries appear
in reverse of their input order (the descending sort reverses a stable
ascending sort). -/
theorem c9_top_products (t : List Row) (n : Nat) :
    List.Pairwise (fun a b : ProductAgg => b.totalSales ≤ a.totalSales)
      (top_products t n) ∧
    (∀ a ∈ top_products t n,
      ∀ b ∈ (sort_values_desc (product_performance t)).drop n,
        b.totalSales ≤ a.totalSales) ∧
    ∀ v : Rat, (sort_values_desc (product_performance t)).filter
        (fun a => decide (a.totalSales = v)) =
      ((product_performance t).filter fun a => decide (a.totalSales = v)).reverse := by
  unfold top_products
  refine ⟨?_, ?_, ?_⟩
  · exact (sort_values_desc_pairwise (product_performance t)).sublist
      (List.take_sublist n _)
  · intro a ha b hb
    have hP := sort_values_desc_pairwise (product_performance t)
    rw [← List.take_append_drop n (sort_values_desc (product_performance t))] at hP
    exact (List.pairwise_append.mp hP).2.2 a ha b hb
  · intro v
    unfold sort_values_desc
    rw [List.filter_reverse, filter_insertionSort_eq _ (salesEq_class v)]

/-- C9 witness: on `c9table` with `n = 1` the dropped tied product has sales
bounded by the kept one, and the tie group with value 10 is reversed. -/
theorem c9_witness :
    (⟨"A", 10, 1⟩ : ProductAgg).totalSales ≤ (⟨"B", 10, 2⟩ : ProductAgg).totalSales ∧
    (sort_values_desc (product_performance c9table)).filter
        (fun a => decide (a.totalSales = 10)) =
      ((product_performance c9table).filter fun a => decide (a.totalSales = 10)).reverse :=
  ⟨(c9_top_products c9table 1).2.1 ⟨"B", 10, 2⟩ (by decide) ⟨"A", 10, 1⟩ (by decide),
   (c9_top_products c9table 1).2.2 10⟩
